import Mathlib

/-!
Verification development for the outlier-trimming pipeline of
basepairmodels (basepairmodels/cli/outliers.py).

The pipeline has two parts:
 - `getPeakPositions`: reads peak records, keeps those on the required
   chromosomes, builds symmetric windows of half-width `flank` around each
   peak summit, drops windows that run off either chromosome end, sorts
   each source by (chrom, end), concatenates the sources and optionally
   drops exact-duplicate rows;
 - the outlier trimmer of `outliers_main` (lines 166-190): sorts peaks by
   average signal, computes the q-th quantile with linear interpolation,
   takes the value nearest the quantile, scales it, and keeps the prefix
   of the sorted sequence up to the first value strictly exceeding the
   scaled value (numpy argmax over a boolean array, which yields 0 when no
   value exceeds).

Floating-point arithmetic is modelled by exact rationals; the numpy and
pandas primitives used by the script (quantile, argmin, argmax,
drop_duplicates, dict lookup) are embedded by their documented semantics
on in-memory lists.
-/

deriving instance DecidableEq for Except

/-- Error outcomes of the pipeline, as distinguishable named values. -/
inductive Err where
  /-- Models the uncaught Python KeyError raised by the dict lookup
      `chrom_size_dict[chrom]` when a chromosome is absent from the
      chromosome-size table; the payload is the missing chromosome. -/
  | keyError (c : String) : Err
  /-- Modelled from the spec: the controlled `ConfigurationError` the spec
      prescribes for a missing chromosome-size entry. The code under
      verification never raises it; it is declared only so that statements
      about it can be expressed. -/
  | configurationError (c : String) : Err
  /-- Models the numpy ValueError raised by `np.quantile` when the
      quantile argument lies outside the closed interval [0, 1]. -/
  | quantileOutOfRange : Err
  /-- Models the numpy error raised when quantile/argmin/argmax receive an
      empty array. -/
  | emptyArray : Err
deriving DecidableEq

/-- A raw peak record as read from a 10-column peak file
    (chrom, st, e, name, weight, strand, signal, p, q, summit). -/
structure PeakRecord where
  chrom : String
  st : Int
  e : Int
  name : String
  weight : ℚ
  strand : String
  signal : ℚ
  p : ℚ
  q : ℚ
  summit : Int
deriving DecidableEq

/-- A row of the dataframe produced by `getPeakPositions`: the source
    record plus the computed window `start`/`end_` columns (the 12 columns
    selected on line 81 of outliers.py; `end` is a Lean keyword, hence
    `end_`). -/
structure PeakRow where
  chrom : String
  st : Int
  e : Int
  start : Int
  end_ : Int
  name : String
  weight : ℚ
  strand : String
  signal : ℚ
  p : ℚ
  q : ℚ
  summit : Int
deriving DecidableEq

/-- Lines 54-62 of outliers.py: `pos = st + summit`,
    `start = pos - flank`, `end = pos + flank`. -/
def mkRow (flank : Int) (r : PeakRecord) : PeakRow :=
  ⟨r.chrom, r.st, r.e, r.st + r.summit - flank, r.st + r.summit + flank,
   r.name, r.weight, r.strand, r.signal, r.p, r.q, r.summit⟩

/-- The chromosome-size dictionary built on line 36 from the size table:
    Python dict construction lets a later entry for the same chromosome
    override an earlier one, hence the reverse lookup. -/
def sizeLookup (sizes : List (String × Int)) (c : String) : Option Int :=
  sizes.reverse.lookup c

/-- Lines 68-69 of outliers.py: the `apply` that adds the `chrom_size`
    column row by row; the first row whose chromosome is missing from the
    dictionary aborts the whole computation with a KeyError naming it. -/
def applySizeLookup (sizes : List (String × Int)) :
    List PeakRow → Except Err (List (PeakRow × Int))
  | [] => Except.ok []
  | r :: rs =>
    match sizeLookup sizes r.chrom with
    | none => Except.error (Err.keyError r.chrom)
    | some sz =>
      match applySizeLookup sizes rs with
      | Except.error err => Except.error err
      | Except.ok l => Except.ok ((r, sz) :: l)

/-- The sort key of line 77: ascending by (chrom, end). -/
def rowLE (a b : PeakRow) : Prop :=
  a.chrom < b.chrom ∨ (a.chrom = b.chrom ∧ a.end_ ≤ b.end_)

instance : DecidableRel rowLE := fun a b => by
  unfold rowLE
  exact inferInstance

/-- Lines 44-83 of outliers.py, the per-source body of the loop in
    `getPeakPositions`: filter to the required chromosomes, compute the
    window columns, drop windows starting before 0, look up chromosome
    sizes, drop windows ending past the chromosome size, sort by
    (chrom, end). -/
def processPeaksFile (chroms : List String) (sizes : List (String × Int))
    (flank : Int) (records : List PeakRecord) : Except Err (List PeakRow) :=
  let filtered := records.filter (fun r => decide (r.chrom ∈ chroms))
  let rows := (filtered.map (mkRow flank)).filter (fun r => decide (0 ≤ r.start))
  match applySizeLookup sizes rows with
  | Except.error err => Except.error err
  | Except.ok withSize =>
    Except.ok (List.insertionSort rowLE
      ((withSize.filter (fun rs => decide (rs.1.end_ ≤ rs.2))).map Prod.fst))

/-- The source loop of `getPeakPositions`: process each peaks file in
    order and append its surviving rows. -/
def processAll (chroms : List String) (sizes : List (String × Int))
    (flank : Int) : List (List PeakRecord) → Except Err (List PeakRow)
  | [] => Except.ok []
  | src :: rest =>
    match processPeaksFile chroms sizes flank src with
    | Except.error err => Except.error err
    | Except.ok t =>
      match processAll chroms sizes flank rest with
      | Except.error err => Except.error err
      | Except.ok ts => Except.ok (t ++ ts)

/-- Pandas `drop_duplicates` (line 90): remove rows equal to an earlier
    row, keeping the first occurrence of each duplicate group. -/
def dropDuplicates {α : Type} [DecidableEq α] : List α → List α
  | [] => []
  | x :: xs => x :: dropDuplicates (xs.filter (fun y => decide (y ≠ x)))
termination_by l => l.length
decreasing_by
  simp only [List.length_cons]
  exact Nat.lt_succ_of_le (List.length_filter_le _ _)

/-- Specification counterpart for the deduplication claim, following the
    claim's words rather than the embedding above: scan the rows in order
    with an accumulator of rows already seen, keeping a row exactly when
    it has not occurred earlier — so the first occurrence of each
    duplicate group survives and the output preserves the overall order
    of first occurrences. Proven equal to `dropDuplicates`. -/
def keepFirsts {α : Type} [DecidableEq α] (seen : List α) : List α → List α
  | [] => []
  | y :: ys => if y ∈ seen then keepFirsts seen ys else y :: keepFirsts (y :: seen) ys

/-- `getPeakPositions` (lines 13-92 of outliers.py) over in-memory
    sources: concatenate the processed sources and optionally drop
    duplicate rows. -/
def getPeakPositions (sources : List (List PeakRecord))
    (chroms : List String) (sizes : List (String × Int)) (flank : Int)
    (dropDup : Bool) : Except Err (List PeakRow) :=
  match processAll chroms sizes flank sources with
  | Except.error err => Except.error err
  | Except.ok allPeaks =>
    Except.ok (if dropDup then dropDuplicates allPeaks else allPeaks)

/-- Absolute value on ℚ, written with an explicit branch (used to model
    numpy `abs`). -/
def absQ (x : ℚ) : ℚ := if x < 0 then -x else x

/-- Minimum of a list of rationals (helper for `npArgmin`; the empty case
    is junk, matching numpy, which raises on empty input). -/
def listMin : List ℚ → ℚ
  | [] => 0
  | [x] => x
  | x :: y :: ys => min x (listMin (y :: ys))

/-- Semantics of `np.argmin`: index of the first occurrence of the
    minimum value (junk 0 on the empty array, on which numpy raises). -/
def npArgmin : List ℚ → Nat
  | [] => 0
  | [_] => 0
  | x :: y :: ys => if x ≤ listMin (y :: ys) then 0 else npArgmin (y :: ys) + 1

/-- Semantics of `np.argmax` on a boolean array: index of the first
    occurrence of the maximum, i.e. the first `true` if any, else 0 (junk
    0 on the empty array, on which numpy raises). -/
def npArgmaxBool : List Bool → Nat
  | [] => 0
  | b :: bs => if b then 0 else if bs.contains true then npArgmaxBool bs + 1 else 0

/-- Semantics of `np.quantile` with the default linear interpolation on an
    already-sorted array: position `h = q * (n - 1)`, interpolate between
    the values at the floor and ceiling indices. -/
def npQuantile (xs : List ℚ) (q : ℚ) : ℚ :=
  let h := q * ((xs.length : ℚ) - 1)
  let lo : Int := ⌊h⌋
  let hi : Int := if (lo : ℚ) = h then lo else lo + 1
  let a := xs.getD lo.toNat 0
  let b := xs.getD hi.toNat 0
  a + (b - a) * (h - (lo : ℚ))

/-- Line 166: ascending sort of the peak scores (value level: any
    comparison sort produces this value sequence). -/
def sortedCounts (counts : List ℚ) : List ℚ :=
  List.insertionSort (fun a b => a ≤ b) counts

/-- Line 177: index of the sorted value closest to the quantile value
    (first index of minimal absolute difference, as `np.argmin`). -/
def quantileIndex (sorted : List ℚ) (nq : ℚ) : Nat :=
  npArgmin (sorted.map (fun x => absQ (x - nq)))

/-- Line 181: the value at the quantile index times the scale factor. -/
def scaledAnchor (sorted : List ℚ) (q s : ℚ) : ℚ :=
  sorted.getD (quantileIndex sorted (npQuantile sorted q)) 0 * s

/-- Line 185: `np.argmax(counts > scaled_value)` — first index whose value
    strictly exceeds the scaled value, 0 when none does. -/
def trimBoundary (sorted : List ℚ) (scaled : ℚ) : Nat :=
  npArgmaxBool (sorted.map (fun x => decide (scaled < x)))

/-- The diagnostic values and the surviving scores of one trimmer run. -/
structure TrimResult where
  quantileValue : ℚ
  quantileIdx : Nat
  scaledValue : ℚ
  maxIdx : Nat
  kept : List ℚ
deriving DecidableEq

/-- Lines 166-190 of `outliers_main`: the outlier trimmer on the average
    scores. `np.quantile` first validates the quantile argument and then
    rejects an empty array; afterwards everything is total: sort, quantile,
    nearest index, scaling, boundary, prefix. -/
def trimOutliers (counts : List ℚ) (q s : ℚ) : Except Err TrimResult :=
  if q < 0 ∨ 1 < q then Except.error Err.quantileOutOfRange
  else if counts.isEmpty then Except.error Err.emptyArray
  else
    let sorted := sortedCounts counts
    let nq := npQuantile sorted q
    let qidx := quantileIndex sorted nq
    let scaled := sorted.getD qidx 0 * s
    let b := trimBoundary sorted scaled
    Except.ok ⟨nq, qidx, scaled, b, sorted.take b⟩

/-! Helper lemmas about `dropDuplicates`. -/

theorem mem_dropDuplicates {α : Type} [DecidableEq α] :
    ∀ (l : List α) (a : α), a ∈ dropDuplicates l ↔ a ∈ l := by
  intro l
  induction l using dropDuplicates.induct with
  | case1 => simp [dropDuplicates]
  | case2 x xs ih =>
    intro a
    rw [dropDuplicates]
    by_cases hax : a = x
    · subst hax; simp
    · simp only [List.mem_cons, ih a, List.mem_filter, decide_eq_true_eq]
      simp [hax]

theorem dropDuplicates_sublist {α : Type} [DecidableEq α] :
    ∀ l : List α, (dropDuplicates l).Sublist l := by
  intro l
  induction l using dropDuplicates.induct with
  | case1 => simp [dropDuplicates]
  | case2 x xs ih =>
    rw [dropDuplicates]
    exact List.Sublist.cons₂ x (ih.trans (List.filter_sublist xs))

theorem nodup_dropDuplicates {α : Type} [DecidableEq α] :
    ∀ l : List α, (dropDuplicates l).Nodup := by
  intro l
  induction l using dropDuplicates.induct with
  | case1 => simp [dropDuplicates]
  | case2 x xs ih =>
    rw [dropDuplicates]
    refine List.nodup_cons.mpr ⟨fun hx => ?_, ih⟩
    have hmem := (mem_dropDuplicates _ x).mp hx
    rw [List.mem_filter] at hmem
    simp at hmem

theorem dropDuplicates_eq_self {α : Type} [DecidableEq α] :
    ∀ l : List α, l.Nodup → dropDuplicates l = l := by
  intro l
  induction l using dropDuplicates.induct with
  | case1 => intro _; simp [dropDuplicates]
  | case2 x xs ih =>
    intro hnd
    rw [List.nodup_cons] at hnd
    have hf : xs.filter (fun y => decide (y ≠ x)) = xs := by
      rw [List.filter_eq_self]
      intro a ha
      simp only [decide_eq_true_eq]
      intro hax
      exact hnd.1 (hax ▸ ha)
    rw [dropDuplicates, hf]
    rw [hf] at ih
    rw [ih hnd.2]

theorem keepFirsts_eq_dropDuplicates_filter {α : Type} [DecidableEq α] :
    ∀ (l seen : List α),
      keepFirsts seen l =
        dropDuplicates (l.filter (fun z => decide (z ∉ seen))) := by
  intro l
  induction l with
  | nil => intro seen; simp [keepFirsts, dropDuplicates]
  | cons y ys ih =>
    intro seen
    by_cases hy : y ∈ seen
    · have hdec : decide (y ∉ seen) = false := by simp [hy]
      simp only [keepFirsts, if_pos hy, List.filter_cons, hdec,
        Bool.false_eq_true, if_false]
      exact ih seen
    · have hdec : decide (y ∉ seen) = true := by simp [hy]
      simp only [keepFirsts, if_neg hy, List.filter_cons, hdec, if_true]
      rw [dropDuplicates, List.filter_filter]
      have hfc : ∀ a ∈ ys,
          (decide (a ≠ y) && decide (a ∉ seen)) = decide (a ∉ y :: seen) := by
        intro a _
        by_cases h1 : a = y
        · simp [h1]
        · by_cases h2 : a ∈ seen
          · simp [h1, h2]
          · simp [h1, h2]
      rw [List.filter_congr hfc]
      rw [ih (y :: seen)]

theorem dropDuplicates_eq_keepFirsts {α : Type} [DecidableEq α]
    (l : List α) : dropDuplicates l = keepFirsts [] l := by
  rw [keepFirsts_eq_dropDuplicates_filter l ([] : List α)]
  congr 1
  symm
  rw [List.filter_eq_self]
  intro a _
  simp

theorem indexOf_filter_lt {α : Type} [DecidableEq α] {p : α → Bool} :
    ∀ {l : List α} {a b : α}, a ∈ l.filter p → b ∈ l.filter p →
      (l.filter p).indexOf a < (l.filter p).indexOf b →
      l.indexOf a < l.indexOf b := by
  intro l
  induction l with
  | nil => intro a b ha _ _; simp at ha
  | cons y ys ih =>
    intro a b ha hb hlt
    by_cases hpy : p y = true
    · rw [List.filter_cons_of_pos hpy] at ha hb hlt
      by_cases hay : a = y
      · subst hay
        rw [List.indexOf_cons_self] at hlt ⊢
        have hba : b ≠ a := by
          intro hba
          subst hba
          rw [List.indexOf_cons_self] at hlt
          exact Nat.lt_irrefl 0 hlt
        rw [List.indexOf_cons_ne _ (Ne.symm hba)]
        exact Nat.succ_pos _
      · by_cases hby : b = y
        · subst hby
          rw [List.indexOf_cons_self, List.indexOf_cons_ne _ (Ne.symm hay)]
            at hlt
          exact absurd hlt (Nat.not_lt_zero _)
        · rw [List.indexOf_cons_ne _ (Ne.symm hay),
            List.indexOf_cons_ne _ (Ne.symm hby)] at hlt
          have ha2 : a ∈ ys.filter p := by
            rcases List.mem_cons.mp ha with h | h
            · exact absurd h hay
            · exact h
          have hb2 : b ∈ ys.filter p := by
            rcases List.mem_cons.mp hb with h | h
            · exact absurd h hby
            · exact h
          have hlt2 : (ys.filter p).indexOf a < (ys.filter p).indexOf b := by
            omega
          have := ih ha2 hb2 hlt2
          rw [List.indexOf_cons_ne _ (Ne.symm hay),
            List.indexOf_cons_ne _ (Ne.symm hby)]
          omega
    · rw [List.filter_cons_of_neg hpy] at ha hb hlt
      have hay : a ≠ y := by
        intro h
        exact hpy (h ▸ (List.mem_filter.mp ha).2)
      have hby : b ≠ y := by
        intro h
        exact hpy (h ▸ (List.mem_filter.mp hb).2)
      have := ih ha hb hlt
      rw [List.indexOf_cons_ne _ (Ne.symm hay),
        List.indexOf_cons_ne _ (Ne.symm hby)]
      omega

theorem dropDuplicates_pairwise_indexOf {α : Type} [DecidableEq α] :
    ∀ l : List α,
      (dropDuplicates l).Pairwise (fun a b => l.indexOf a < l.indexOf b) := by
  intro l
  induction l using dropDuplicates.induct with
  | case1 => simp [dropDuplicates]
  | case2 x xs ih =>
    rw [dropDuplicates]
    refine List.pairwise_cons.mpr ⟨?_, ?_⟩
    · intro b hb
      have hbf := (mem_dropDuplicates _ b).mp hb
      have hbne : b ≠ x := by
        have h2 := (List.mem_filter.mp hbf).2
        simpa using h2
      rw [List.indexOf_cons_self, List.indexOf_cons_ne _ (Ne.symm hbne)]
      exact Nat.succ_pos _
    · refine List.Pairwise.imp_of_mem ?_ ih
      intro a b ha hb hr
      have haf := (mem_dropDuplicates _ a).mp ha
      have hbf := (mem_dropDuplicates _ b).mp hb
      have hane : a ≠ x := by simpa using (List.mem_filter.mp haf).2
      have hbne : b ≠ x := by simpa using (List.mem_filter.mp hbf).2
      have hxs : xs.indexOf a < xs.indexOf b :=
        indexOf_filter_lt haf hbf hr
      rw [List.indexOf_cons_ne _ (Ne.symm hane),
        List.indexOf_cons_ne _ (Ne.symm hbne)]
      exact Nat.succ_lt_succ hxs

/-! Helper lemmas inverting the Except-valued extractor pipeline. -/

theorem applySizeLookup_ok_mem {sizes : List (String × Int)} :
    ∀ {rows : List PeakRow} {ws : List (PeakRow × Int)},
      applySizeLookup sizes rows = Except.ok ws →
      ∀ {r : PeakRow} {sz : Int}, (r, sz) ∈ ws →
        r ∈ rows ∧ sizeLookup sizes r.chrom = some sz := by
  intro rows
  induction rows with
  | nil =>
    intro ws h r sz hmem
    simp only [applySizeLookup] at h
    cases h
    simp at hmem
  | cons a rs ih =>
    intro ws h r sz hmem
    simp only [applySizeLookup] at h
    cases hlook : sizeLookup sizes a.chrom with
    | none => rw [hlook] at h; cases h
    | some asz =>
      rw [hlook] at h
      cases htail : applySizeLookup sizes rs with
      | error e => rw [htail] at h; cases h
      | ok l =>
        rw [htail] at h
        cases h
        rcases List.mem_cons.mp hmem with hpair | hpair
        · injection hpair with h1 h2
          subst h1
          subst h2
          exact ⟨List.mem_cons_self _ _, hlook⟩
        · have hih := ih htail hpair
          exact ⟨List.mem_cons_of_mem _ hih.1, hih.2⟩

theorem processPeaksFile_ok_mem {chroms : List String}
    {sizes : List (String × Int)} {flank : Int} {records : List PeakRecord}
    {t : List PeakRow} (h : processPeaksFile chroms sizes flank records = Except.ok t)
    {r : PeakRow} (hr : r ∈ t) :
    ∃ rec ∈ records, rec.chrom ∈ chroms ∧ r = mkRow flank rec ∧
      0 ≤ r.start ∧ ∃ sz, sizeLookup sizes r.chrom = some sz ∧ r.end_ ≤ sz := by
  simp only [processPeaksFile] at h
  cases hlook : applySizeLookup sizes
      (((records.filter (fun rc => decide (rc.chrom ∈ chroms))).map
        (mkRow flank)).filter (fun row => decide (0 ≤ row.start))) with
  | error e => rw [hlook] at h; cases h
  | ok withSize =>
    rw [hlook] at h
    cases h
    have hperm := List.perm_insertionSort rowLE
      ((withSize.filter (fun rs => decide (rs.1.end_ ≤ rs.2))).map Prod.fst)
    have hr2 := hperm.mem_iff.mp hr
    rcases List.mem_map.mp hr2 with ⟨pair, hpairmem, hpairfst⟩
    rcases List.mem_filter.mp hpairmem with ⟨hpairws, hpairle⟩
    rw [decide_eq_true_eq] at hpairle
    have hpair2 : (r, pair.2) ∈ withSize := by
      rw [← hpairfst]
      exact hpairws
    have hrowfacts := applySizeLookup_ok_mem hlook hpair2
    rcases List.mem_filter.mp hrowfacts.1 with ⟨hrowmap, hstart⟩
    rw [decide_eq_true_eq] at hstart
    rcases List.mem_map.mp hrowmap with ⟨rec, hrecmem, hrecrow⟩
    rcases List.mem_filter.mp hrecmem with ⟨hrecrecords, hrecchrom⟩
    rw [decide_eq_true_eq] at hrecchrom
    refine ⟨rec, hrecrecords, hrecchrom, hrecrow.symm, hstart, pair.2,
      hrowfacts.2, ?_⟩
    rw [hpairfst] at hpairle
    exact hpairle

theorem processAll_ok_mem {chroms : List String} {sizes : List (String × Int)}
    {flank : Int} :
    ∀ {sources : List (List PeakRecord)} {rows : List PeakRow},
      processAll chroms sizes flank sources = Except.ok rows →
      ∀ {r : PeakRow}, r ∈ rows →
        ∃ src ∈ sources, ∃ t, processPeaksFile chroms sizes flank src = Except.ok t ∧
          r ∈ t := by
  intro sources
  induction sources with
  | nil =>
    intro rows h r hr
    simp only [processAll] at h
    cases h
    simp at hr
  | cons src rest ih =>
    intro rows h r hr
    simp only [processAll] at h
    cases hsrc : processPeaksFile chroms sizes flank src with
    | error e => rw [hsrc] at h; cases h
    | ok t =>
      rw [hsrc] at h
      cases hrest : processAll chroms sizes flank rest with
      | error e => rw [hrest] at h; cases h
      | ok ts =>
        rw [hrest] at h
        cases h
        rcases List.mem_append.mp hr with hmem | hmem
        · exact ⟨src, List.mem_cons_self src rest, t, hsrc, hmem⟩
        · rcases ih hrest hmem with ⟨src2, hsrc2, t2, hpt2, hmem2⟩
          exact ⟨src2, List.mem_cons_of_mem src hsrc2, t2, hpt2, hmem2⟩

theorem getPeakPositions_ok_mem {sources : List (List PeakRecord)}
    {chroms : List String} {sizes : List (String × Int)} {flank : Int}
    {dropDup : Bool} {rows : List PeakRow}
    (h : getPeakPositions sources chroms sizes flank dropDup = Except.ok rows)
    {r : PeakRow} (hr : r ∈ rows) :
    ∃ src ∈ sources, ∃ rec ∈ src, rec.chrom ∈ chroms ∧ r = mkRow flank rec ∧
      0 ≤ r.start ∧ ∃ sz, sizeLookup sizes r.chrom = some sz ∧ r.end_ ≤ sz := by
  unfold getPeakPositions at h
  cases hall : processAll chroms sizes flank sources with
  | error e => rw [hall] at h; cases h
  | ok allPeaks =>
    rw [hall] at h
    cases h
    have hmem : r ∈ allPeaks := by
      cases dropDup with
      | false => simpa using hr
      | true =>
        simp only [if_pos] at hr
        exact (mem_dropDuplicates allPeaks r).mp hr
    rcases processAll_ok_mem hall hmem with ⟨src, hsrcmem, t, hpt, hrt⟩
    rcases processPeaksFile_ok_mem hpt hrt with ⟨rec, hrecmem, hchrom, hrow, hrest⟩
    exact ⟨src, hsrcmem, rec, hrecmem, hchrom, hrow, hrest⟩

/-! Helper lemmas about the trimmer primitives. -/

theorem trimOutliers_ok {counts : List ℚ} {q s : ℚ} {r : TrimResult}
    (h : trimOutliers counts q s = Except.ok r) :
    ¬(q < 0 ∨ 1 < q) ∧ counts ≠ [] ∧
      r = ⟨npQuantile (sortedCounts counts) q,
           quantileIndex (sortedCounts counts) (npQuantile (sortedCounts counts) q),
           scaledAnchor (sortedCounts counts) q s,
           trimBoundary (sortedCounts counts) (scaledAnchor (sortedCounts counts) q s),
           (sortedCounts counts).take
             (trimBoundary (sortedCounts counts) (scaledAnchor (sortedCounts counts) q s))⟩ := by
  simp only [trimOutliers] at h
  split_ifs at h with h1 h2
  refine ⟨h1, fun hnil => ?_, ?_⟩
  · rw [hnil] at h2
    simp at h2
  · injection h with h3
    rw [← h3]
    rfl

theorem contains_true_map {α : Type} (p : α → Bool) (l : List α) :
    (l.map p).contains true = true ↔ ∃ a ∈ l, p a = true := by
  induction l with
  | nil => simp
  | cons x xs ih =>
    simp only [List.map_cons, List.contains_cons]
    cases hx : p x with
    | true => simp [hx]
    | false =>
      simp only [Bool.or_eq_true, beq_iff_eq, List.mem_cons]
      constructor
      · intro hor
        rcases hor with heq | hrest
        · exact absurd heq.symm (by simp [hx])
        · rcases ih.mp hrest with ⟨a, ha, hpa⟩
          exact ⟨a, Or.inr ha, hpa⟩
      · rintro ⟨a, ha | ha, hpa⟩
        · subst ha; rw [hx] at hpa; cases hpa
        · exact Or.inr (ih.mpr ⟨a, ha, hpa⟩)

theorem npArgmaxBool_map_eq_findIdx {α : Type} (p : α → Bool) :
    ∀ l : List α, (∃ a ∈ l, p a = true) →
      npArgmaxBool (l.map p) = l.findIdx p := by
  intro l
  induction l with
  | nil => rintro ⟨a, ha, _⟩; cases ha
  | cons x xs ih =>
    intro hex
    simp only [List.map_cons, npArgmaxBool, List.findIdx_cons]
    cases hx : p x with
    | true => simp
    | false =>
      have hex2 : ∃ a ∈ xs, p a = true := by
        rcases hex with ⟨a, ha, hpa⟩
        rcases List.mem_cons.mp ha with rfl | ha2
        · rw [hx] at hpa; cases hpa
        · exact ⟨a, ha2, hpa⟩
      have hcont : (xs.map p).contains true = true :=
        (contains_true_map p xs).mpr hex2
      simp [hx, hcont, ih hex2]
      exact hex2

theorem npArgmaxBool_eq_zero {l : List Bool} (h : ∀ b ∈ l, b = false) :
    npArgmaxBool l = 0 := by
  cases l with
  | nil => rfl
  | cons b bs =>
    simp only [npArgmaxBool]
    have hb : b = false := h b (List.mem_cons_self _ _)
    subst hb
    have hcont : bs.contains true = false := by
      cases hc : bs.contains true with
      | false => rfl
      | true =>
        rcases (contains_true_map id bs).mp (by simpa using hc) with ⟨a, ha, hpa⟩
        have := h a (List.mem_cons_of_mem _ ha)
        simp [this] at hpa
    simp only [npArgmaxBool, hcont]
    simp

theorem findIdx_le_findIdx_of_imp {α : Type} {p2 p1 : α → Bool}
    (himp : ∀ a, p2 a = true → p1 a = true) :
    ∀ l : List α, (∃ a ∈ l, p2 a = true) → l.findIdx p1 ≤ l.findIdx p2 := by
  intro l
  induction l with
  | nil => rintro ⟨a, ha, _⟩; cases ha
  | cons x xs ih =>
    intro hex
    simp only [List.findIdx_cons]
    cases hx2 : p2 x with
    | true =>
      rw [himp x hx2]
      simp
    | false =>
      cases hx1 : p1 x with
      | true => simp
      | false =>
        have hex2 : ∃ a ∈ xs, p2 a = true := by
          rcases hex with ⟨a, ha, hpa⟩
          rcases List.mem_cons.mp ha with rfl | ha2
          · rw [hx2] at hpa; cases hpa
          · exact ⟨a, ha2, hpa⟩
        simpa using Nat.succ_le_succ (ih hex2)

theorem take_findIdx_eq_filter {p : ℚ → Bool}
    (hmono : ∀ x y : ℚ, x ≤ y → p x = true → p y = true) :
    ∀ l : List ℚ, l.Sorted (· ≤ ·) →
      l.take (l.findIdx p) = l.filter (fun x => !(p x)) := by
  intro l
  induction l with
  | nil => intro _; rfl
  | cons x xs ih =>
    intro hsort
    rcases List.sorted_cons.mp hsort with ⟨hx, hs⟩
    simp only [List.findIdx_cons, List.filter_cons]
    cases hpx : p x with
    | true =>
      have hfilter : List.filter (fun a => !p a) xs = [] := by
        rw [List.filter_eq_nil_iff]
        intro a ha
        have hpa := hmono x a (hx a ha) hpx
        simp [hpa]
      simp [hpx, hfilter]
    | false =>
      simp [hpx, List.take_succ_cons, ih hs]

theorem listMin_le_mem : ∀ (l : List ℚ) (x : ℚ), x ∈ l → listMin l ≤ x := by
  intro l
  induction l using listMin.induct with
  | case1 => intro x hx; cases hx
  | case2 y =>
    intro x hx
    rcases List.mem_singleton.mp hx with rfl
    simp [listMin]
  | case3 a b bs ih =>
    intro x hx
    simp only [listMin]
    rcases List.mem_cons.mp hx with rfl | hx2
    · exact min_le_left _ _
    · exact le_trans (min_le_right _ _) (ih x hx2)

theorem npArgmin_lt_length : ∀ l : List ℚ, l ≠ [] → npArgmin l < l.length := by
  intro l
  induction l using npArgmin.induct with
  | case1 => intro h; exact absurd rfl h
  | case2 x => intro _; simp [npArgmin]
  | case3 x y ys hle =>
    intro _
    simp [npArgmin, hle]
  | case4 x y ys hle ih =>
    intro _
    have h2 := ih (by simp)
    simp only [npArgmin, if_neg hle, List.length_cons]
    simp only [List.length_cons] at h2
    omega

theorem getD_mem {α : Type} :
    ∀ (l : List α) (i : Nat), i < l.length → ∀ d : α, l.getD i d ∈ l := by
  intro l
  induction l with
  | nil => intro i hi; simp at hi
  | cons x xs ih =>
    intro i hi d
    cases i with
    | zero => simp
    | succ n =>
      simp only [List.getD_cons_succ]
      exact List.mem_cons_of_mem _ (ih n (by simpa using hi) d)

/-! Claim theorems. -/

/-- C1: evidence of the divergence — on a task whose single peak lies on
    chromosome "chrZ", which is in the required chromosome list but absent
    from the size table, the pipeline aborts with the uncaught KeyError of
    the raw dict lookup `chrom_size_dict[chrom]` naming "chrZ", not with
    the controlled `ConfigurationError` the spec prescribes; no row table
    is produced. -/
theorem getPeakPositions_missing_chrom_keyError :
    getPeakPositions [[⟨"chrZ", 5, 10, "p1", 0, ".", 0, 0, 0, 2⟩]]
      [("chrZ")] [(("chr1"), 100)] 1 true =
      Except.error (Err.keyError ("chrZ")) := by
  decide

/-- C2 counterexample: with flank 0, a peak passing both boundary filters
    is emitted with window_start = window_end — an empty window — so the
    claimed strict inequality window_start < window_end fails. -/
theorem getPeakPositions_zero_flank_empty_window :
    getPeakPositions [[⟨"chr1", 5, 10, "p1", 0, ".", 0, 0, 0, 0⟩]]
      [("chr1")] [(("chr1"), 100)] 0 false =
      Except.ok [⟨"chr1", 5, 10, 5, 5, "p1", 0, ".", 0, 0, 0, 0⟩] ∧
    (PeakRow.mk ("chr1") 5 10 5 5 ("p1") 0 (".") 0 0 0 0).start =
      (PeakRow.mk ("chr1") 5 10 5 5 ("p1") 0 (".") 0 0 0 0).end_ := by
  constructor
  · decide
  · rfl

/-- C2 (amended): for a nonnegative flank, every row emitted by the
    extractor satisfies 0 ≤ window_start ≤ window_end ≤ chrom size, with
    window_start < window_end whenever the flank is positive (a zero
    flank yields empty windows with start = end). -/
theorem getPeakPositions_window_bounds {sources : List (List PeakRecord)}
    {chroms : List String} {sizes : List (String × Int)} {flank : Int}
    {dropDup : Bool} {rows : List PeakRow} {r : PeakRow}
    (hflank : 0 ≤ flank)
    (h : getPeakPositions sources chroms sizes flank dropDup = Except.ok rows)
    (hr : r ∈ rows) :
    0 ≤ r.start ∧ r.start ≤ r.end_ ∧ (0 < flank → r.start < r.end_) ∧
      ∃ sz, sizeLookup sizes r.chrom = some sz ∧ r.end_ ≤ sz := by
  rcases getPeakPositions_ok_mem h hr with
    ⟨src, _, rec, _, _, hrow, hstart, sz, hsz, hend⟩
  subst hrow
  refine ⟨hstart, ?_, ?_, sz, hsz, hend⟩
  · simp only [mkRow]
    omega
  · intro hf
    simp only [mkRow]
    omega

/-- C2 witness: the amended bound theorem applied to a one-peak task with
    flank 1. -/
theorem getPeakPositions_window_bounds_witness :
    0 ≤ (PeakRow.mk ("chr1") 5 10 4 6 ("p1") 0 (".") 0 0 0 0).start ∧
    (PeakRow.mk ("chr1") 5 10 4 6 ("p1") 0 (".") 0 0 0 0).start ≤
      (PeakRow.mk ("chr1") 5 10 4 6 ("p1") 0 (".") 0 0 0 0).end_ ∧
    ((0 : Int) < 1 →
      (PeakRow.mk ("chr1") 5 10 4 6 ("p1") 0 (".") 0 0 0 0).start <
        (PeakRow.mk ("chr1") 5 10 4 6 ("p1") 0 (".") 0 0 0 0).end_) ∧
    ∃ sz, sizeLookup [(("chr1"), 100)]
        (PeakRow.mk ("chr1") 5 10 4 6 ("p1") 0 (".") 0 0 0 0).chrom = some sz ∧
      (PeakRow.mk ("chr1") 5 10 4 6 ("p1") 0 (".") 0 0 0 0).end_ ≤ sz :=
  getPeakPositions_window_bounds (by decide)
    (by decide :
      getPeakPositions [[⟨"chr1", 5, 10, "p1", 0, ".", 0, 0, 0, 0⟩]]
        [("chr1")] [(("chr1"), 100)] 1 false =
        Except.ok [⟨"chr1", 5, 10, 4, 6, "p1", 0, ".", 0, 0, 0, 0⟩])
    (by decide)

/-- C9: pandas `drop_duplicates` on extractor rows is idempotent; the
    result is a sublist of the input (surviving rows keep the input
    order), contains no duplicate row (full field-tuple equality), and
    keeps exactly the set of input rows; it keeps the first occurrence of
    each duplicate group preserving the overall order of first
    occurrences: the result equals the spec-worded keep-first scan
    `keepFirsts`, and consecutive result rows are strictly ordered by the
    index of their first occurrence in the input (`List.indexOf`), which
    a keep-last deduplication would violate. -/
theorem dropDuplicates_spec (l : List PeakRow) :
    dropDuplicates (dropDuplicates l) = dropDuplicates l ∧
    (dropDuplicates l).Sublist l ∧
    (dropDuplicates l).Nodup ∧
    (∀ a : PeakRow, a ∈ dropDuplicates l ↔ a ∈ l) ∧
    dropDuplicates l = keepFirsts [] l ∧
    (dropDuplicates l).Pairwise (fun a b => l.indexOf a < l.indexOf b) :=
  ⟨dropDuplicates_eq_self _ (nodup_dropDuplicates l),
   dropDuplicates_sublist l, nodup_dropDuplicates l,
   fun a => mem_dropDuplicates l a,
   dropDuplicates_eq_keepFirsts l,
   dropDuplicates_pairwise_indexOf l⟩

/-- C8: for the three peaks with average scores [10, 20, 30], quantile 0.5
    and scale factor 1.2, the trimmer computes quantile value 20, quantile
    index 1, scaled value 24, trim boundary 2, and keeps exactly the
    scores [10, 20]. -/
theorem trimOutliers_example_10_20_30 :
    trimOutliers [10, 20, 30] (1/2) (6/5) =
      Except.ok ⟨20, 1, 24, 2, [10, 20]⟩ := by
  norm_num [trimOutliers, sortedCounts, List.insertionSort, List.orderedInsert,
    npQuantile, quantileIndex, npArgmin, listMin, absQ, min_def, trimBoundary,
    npArgmaxBool, List.contains, Int.toNat_ofNat]

/-- C6 counterexample: the boundary quantiles q = 0 and q = 1 are accepted
    by `np.quantile` — the trimmer returns a result instead of failing —
    so the claim that every q outside the open interval (0, 1) fails with
    InvalidArgument is false. -/
theorem trimOutliers_accepts_boundary_quantile :
    trimOutliers [10, 20, 30] 0 (6/5) = Except.ok ⟨10, 0, 12, 1, [10]⟩ ∧
    trimOutliers [10, 20, 30] 1 (6/5) = Except.ok ⟨30, 2, 36, 0, []⟩ := by
  constructor
  · norm_num [trimOutliers, sortedCounts, List.insertionSort, List.orderedInsert,
      npQuantile, quantileIndex, npArgmin, listMin, absQ, min_def, trimBoundary,
      npArgmaxBool, List.contains, Int.toNat_ofNat]
  · norm_num [trimOutliers, sortedCounts, List.insertionSort, List.orderedInsert,
      npQuantile, quantileIndex, npArgmin, listMin, absQ, min_def, trimBoundary,
      npArgmaxBool, List.contains, Int.toNat_ofNat]
    simp
    norm_num

/-- C6 (amended): a quantile argument q with q < 0 or q > 1 makes the
    trimmer fail with numpy's out-of-range error before any result is
    produced; the boundary values 0 and 1 are accepted. -/
theorem trimOutliers_quantile_domain (counts : List ℚ) (q s : ℚ)
    (h : q < 0 ∨ 1 < q) :
    trimOutliers counts q s = Except.error Err.quantileOutOfRange := by
  simp only [trimOutliers, if_pos h]

/-- C6 witness: the out-of-range theorem applied at q = 3/2. -/
theorem trimOutliers_quantile_domain_witness :
    trimOutliers [10, 20, 30] (3/2) (6/5) =
      Except.error Err.quantileOutOfRange :=
  trimOutliers_quantile_domain [10, 20, 30] (3/2) (6/5) (Or.inr (by norm_num))

/-- C5 counterexample: on empty input the extractor does return an empty
    table, but the trimmer then fails on the empty score array (numpy
    rejects empty arrays) instead of returning an empty sequence without
    error. -/
theorem trimOutliers_empty_errors :
    getPeakPositions [[]] [("chr1")] [(("chr1"), 100)] 500 false =
      Except.ok [] ∧
    trimOutliers [] (1/2) (6/5) = Except.error Err.emptyArray := by
  constructor
  · decide
  · norm_num [trimOutliers]

/-- Helper for C5: when every peak source is empty, the extractor
    produces the empty row table. -/
theorem processAll_all_empty {chroms : List String}
    {sizes : List (String × Int)} {flank : Int} :
    ∀ sources : List (List PeakRecord), (∀ l ∈ sources, l = []) →
      processAll chroms sizes flank sources = Except.ok [] := by
  intro sources
  induction sources with
  | nil => intro _; rfl
  | cons src rest ih =>
    intro h
    have h1 : src = [] := h src (List.mem_cons_self _ _)
    subst h1
    have h2 := ih (fun l hl => h l (List.mem_cons_of_mem _ hl))
    have h3 : processPeaksFile chroms sizes flank [] = Except.ok [] := rfl
    simp [processAll, h3, h2]

/-- C5 (amended): when every peak source is empty the extractor returns
    the empty sequence, but the trimmer errors on the empty score array
    (for any in-range quantile) rather than returning an empty result. -/
theorem extractor_trimmer_empty_input (sources : List (List PeakRecord))
    (chroms : List String) (sizes : List (String × Int)) (flank : Int)
    (dropDup : Bool) (q s : ℚ) (hsrc : ∀ l ∈ sources, l = [])
    (hq0 : 0 ≤ q) (hq1 : q ≤ 1) :
    getPeakPositions sources chroms sizes flank dropDup = Except.ok [] ∧
    trimOutliers [] q s = Except.error Err.emptyArray := by
  constructor
  · have hall : processAll chroms sizes flank sources = Except.ok [] :=
      processAll_all_empty sources hsrc
    simp only [getPeakPositions, hall]
    cases dropDup with
    | false => rfl
    | true => simp [dropDuplicates]
  · have hcond : ¬(q < 0 ∨ 1 < q) := by
      rintro (hlt | hlt)
      · exact absurd hq0 (not_le.mpr hlt)
      · exact absurd hq1 (not_le.mpr hlt)
    simp [trimOutliers, hcond]

/-- C5 witness: the empty-input theorem applied to two empty sources with
    flank 500 and q = 1/2, s = 6/5. -/
theorem extractor_trimmer_empty_input_witness :
    getPeakPositions [[], []] [("chr1")] [(("chr1"), 100)] 500 true =
      Except.ok [] ∧
    trimOutliers [] (1/2) (6/5) = Except.error Err.emptyArray :=
  extractor_trimmer_empty_input [[], []] [("chr1")] [(("chr1"), 100)] 500 true
    (1/2) (6/5) (by decide) (by norm_num) (by norm_num)

/-- C4: for a nonempty score sequence already sorted ascending and an
    accepted quantile, the trim boundary equals the index of the first
    score strictly exceeding the scaled value when one exists, equals 0
    when no score exceeds it (so the entire input is discarded, not
    retained), and the result is exactly the prefix of the sorted
    sequence up to and excluding the boundary. -/
theorem trimOutliers_prefix_rule {counts : List ℚ} {q s : ℚ} {r : TrimResult}
    (hsort : counts.Sorted (· ≤ ·))
    (h : trimOutliers counts q s = Except.ok r) :
    r.kept = counts.take r.maxIdx ∧
    ((∃ x ∈ counts, r.scaledValue < x) →
      r.maxIdx = counts.findIdx (fun x => decide (r.scaledValue < x))) ∧
    ((∀ x ∈ counts, x ≤ r.scaledValue) → r.maxIdx = 0) := by
  rcases trimOutliers_ok h with ⟨_, _, hre⟩
  have hsc : sortedCounts counts = counts := List.Sorted.insertionSort_eq hsort
  subst hre
  simp only [hsc]
  refine ⟨trivial, ?_, ?_⟩
  · intro hex
    have hex2 : ∃ a ∈ counts,
        (fun x => decide (scaledAnchor counts q s < x)) a = true := by
      rcases hex with ⟨x, hx, hlt⟩
      exact ⟨x, hx, decide_eq_true hlt⟩
    exact npArgmaxBool_map_eq_findIdx _ counts hex2
  · intro hall
    apply npArgmaxBool_eq_zero
    intro b hb
    rcases List.mem_map.mp hb with ⟨a, ha, hba⟩
    have hno : ¬ scaledAnchor counts q s < a := not_lt.mpr (hall a ha)
    rw [← hba]
    simp [hno]

/-- C4 witness: the prefix-rule theorem applied to the sorted scores
    [10, 20, 30] with q = 1/2 and s = 6/5. -/
theorem trimOutliers_prefix_rule_witness :
    (⟨20, 1, 24, 2, [10, 20]⟩ : TrimResult).kept =
      [10, 20, 30].take (⟨20, 1, 24, 2, [10, 20]⟩ : TrimResult).maxIdx ∧
    ((∃ x ∈ ([10, 20, 30] : List ℚ),
        (⟨20, 1, 24, 2, [10, 20]⟩ : TrimResult).scaledValue < x) →
      (⟨20, 1, 24, 2, [10, 20]⟩ : TrimResult).maxIdx =
        ([10, 20, 30] : List ℚ).findIdx
          (fun x => decide ((⟨20, 1, 24, 2, [10, 20]⟩ : TrimResult).scaledValue < x))) ∧
    ((∀ x ∈ ([10, 20, 30] : List ℚ),
        x ≤ (⟨20, 1, 24, 2, [10, 20]⟩ : TrimResult).scaledValue) →
      (⟨20, 1, 24, 2, [10, 20]⟩ : TrimResult).maxIdx = 0) :=
  trimOutliers_prefix_rule (by norm_num [List.sorted_cons])
    (by norm_num [trimOutliers, sortedCounts, List.insertionSort,
      List.orderedInsert, npQuantile, quantileIndex, npArgmin, listMin, absQ,
      min_def, trimBoundary, npArgmaxBool, List.contains, Int.toNat_ofNat] :
      trimOutliers [10, 20, 30] (1/2) (6/5) =
        Except.ok ⟨20, 1, 24, 2, [10, 20]⟩)

/-- C3 counterexample: from the scores [10, 30] at quantile 0.5 the anchor
    value is 10; raising the scale factor from 2 to 4 moves the scaled
    value from 20 to 40, past every score, and the numpy
    argmax-of-all-false rule collapses the trim boundary from 1 to 0 — the
    boundary strictly decreases although the scale factor increased. -/
theorem trimBoundary_scale_not_mono :
    (0 : ℚ) < 2 ∧ (2 : ℚ) < 4 ∧
    trimOutliers [10, 30] (1/2) 2 = Except.ok ⟨20, 0, 20, 1, [10]⟩ ∧
    trimOutliers [10, 30] (1/2) 4 = Except.ok ⟨20, 0, 40, 0, []⟩ ∧
    (TrimResult.mk 20 0 40 0 []).maxIdx < (TrimResult.mk 20 0 20 1 [10]).maxIdx := by
  refine ⟨by norm_num, by norm_num, ?_, ?_, by decide⟩
  · norm_num [trimOutliers, sortedCounts, List.insertionSort, List.orderedInsert,
      npQuantile, quantileIndex, npArgmin, listMin, absQ, min_def, trimBoundary,
      npArgmaxBool, List.contains, Int.toNat_ofNat]
  · norm_num [trimOutliers, sortedCounts, List.insertionSort, List.orderedInsert,
      npQuantile, quantileIndex, npArgmin, listMin, absQ, min_def, trimBoundary,
      npArgmaxBool, List.contains, Int.toNat_ofNat]

/-- C3 (amended): with nonnegative scores, and provided some score still
    strictly exceeds the scaled value obtained under the larger scale
    factor, a larger scale factor yields a trim boundary at least as
    large; monotonicity fails only through a negative anchor or the
    all-below collapse-to-0 edge shown in the counterexample. -/
theorem trimBoundary_scale_mono {counts : List ℚ} {q s1 s2 : ℚ}
    {r1 r2 : TrimResult}
    (hpos : ∀ x ∈ counts, 0 ≤ x) (hs : s1 ≤ s2)
    (h1 : trimOutliers counts q s1 = Except.ok r1)
    (h2 : trimOutliers counts q s2 = Except.ok r2)
    (hex : ∃ x ∈ counts, r2.scaledValue < x) :
    r1.maxIdx ≤ r2.maxIdx := by
  rcases trimOutliers_ok h1 with ⟨_, hne, hre1⟩
  rcases trimOutliers_ok h2 with ⟨_, _, hre2⟩
  subst hre1
  subst hre2
  have hperm := List.perm_insertionSort (fun a b => a ≤ b) counts
  have hlen : (sortedCounts counts).length = counts.length := hperm.length_eq
  have hSne : sortedCounts counts ≠ [] := by
    intro hnil
    rw [hnil] at hlen
    cases counts with
    | nil => exact hne rfl
    | cons a l => simp at hlen
  have hanchor : 0 ≤ (sortedCounts counts).getD
      (quantileIndex (sortedCounts counts) (npQuantile (sortedCounts counts) q)) 0 := by
    have hmne : (sortedCounts counts).map
        (fun x => absQ (x - npQuantile (sortedCounts counts) q)) ≠ [] := by
      intro hnil
      exact hSne (List.map_eq_nil_iff.mp hnil)
    have hidx :
        quantileIndex (sortedCounts counts) (npQuantile (sortedCounts counts) q) <
          (sortedCounts counts).length := by
      have hlt := npArgmin_lt_length _ hmne
      simpa [quantileIndex, List.length_map] using hlt
    exact hpos _ (hperm.mem_iff.mp (getD_mem _ _ hidx 0))
  have hscaled : scaledAnchor (sortedCounts counts) q s1 ≤
      scaledAnchor (sortedCounts counts) q s2 :=
    mul_le_mul_of_nonneg_left hs hanchor
  have hex2 : ∃ a ∈ sortedCounts counts,
      (fun x => decide (scaledAnchor (sortedCounts counts) q s2 < x)) a = true := by
    rcases hex with ⟨x0, hx0, hlt⟩
    exact ⟨x0, hperm.mem_iff.mpr hx0, decide_eq_true hlt⟩
  have hex1 : ∃ a ∈ sortedCounts counts,
      (fun x => decide (scaledAnchor (sortedCounts counts) q s1 < x)) a = true := by
    rcases hex2 with ⟨x0, hx0, hlt⟩
    rw [decide_eq_true_eq] at hlt
    exact ⟨x0, hx0, decide_eq_true (lt_of_le_of_lt hscaled hlt)⟩
  have hb1 : trimBoundary (sortedCounts counts)
      (scaledAnchor (sortedCounts counts) q s1) =
      (sortedCounts counts).findIdx
        (fun x => decide (scaledAnchor (sortedCounts counts) q s1 < x)) :=
    npArgmaxBool_map_eq_findIdx _ _ hex1
  have hb2 : trimBoundary (sortedCounts counts)
      (scaledAnchor (sortedCounts counts) q s2) =
      (sortedCounts counts).findIdx
        (fun x => decide (scaledAnchor (sortedCounts counts) q s2 < x)) :=
    npArgmaxBool_map_eq_findIdx _ _ hex2
  show trimBoundary (sortedCounts counts)
      (scaledAnchor (sortedCounts counts) q s1) ≤
    trimBoundary (sortedCounts counts)
      (scaledAnchor (sortedCounts counts) q s2)
  rw [hb1, hb2]
  apply findIdx_le_findIdx_of_imp
  · intro a ha
    rw [decide_eq_true_eq] at ha ⊢
    exact lt_of_le_of_lt hscaled ha
  · exact hex2

/-- C3 witness: the monotonicity theorem applied to the scores [10, 30]
    with scale factors 1 and 3/2, where the boundary stays at 1. -/
theorem trimBoundary_scale_mono_witness :
    (TrimResult.mk 20 0 10 1 [10]).maxIdx ≤ (TrimResult.mk 20 0 15 1 [10]).maxIdx :=
  trimBoundary_scale_mono
    (by norm_num)
    (by norm_num)
    (by norm_num [trimOutliers, sortedCounts, List.insertionSort,
      List.orderedInsert, npQuantile, quantileIndex, npArgmin, listMin, absQ,
      min_def, trimBoundary, npArgmaxBool, List.contains, Int.toNat_ofNat] :
      trimOutliers [10, 30] (1/2) 1 = Except.ok ⟨20, 0, 10, 1, [10]⟩)
    (by norm_num [trimOutliers, sortedCounts, List.insertionSort,
      List.orderedInsert, npQuantile, quantileIndex, npArgmin, listMin, absQ,
      min_def, trimBoundary, npArgmaxBool, List.contains, Int.toNat_ofNat] :
      trimOutliers [10, 30] (1/2) (3/2) = Except.ok ⟨20, 0, 15, 1, [10]⟩)
    (by norm_num)

/-- C10: when at least one score strictly exceeds the scaled value, the
    kept prefix is exactly the ascending-sorted scores at or below the
    scaled value — the prefix-by-boundary rule coincides with threshold
    filtering, both as the sorted filtered list and as a permutation of
    the threshold-filtered input. -/
theorem trimOutliers_threshold_filter {counts : List ℚ} {q s : ℚ}
    {r : TrimResult}
    (h : trimOutliers counts q s = Except.ok r)
    (hex : ∃ x ∈ counts, r.scaledValue < x) :
    r.kept = (sortedCounts counts).filter (fun x => decide (x ≤ r.scaledValue)) ∧
    r.kept.Perm (counts.filter (fun x => decide (x ≤ r.scaledValue))) := by
  rcases trimOutliers_ok h with ⟨_, hne, hre⟩
  subst hre
  have hperm := List.perm_insertionSort (fun a b => a ≤ b) counts
  have hsorted : (sortedCounts counts).Sorted (· ≤ ·) :=
    List.sorted_insertionSort (fun a b => a ≤ b) counts
  have hex2 : ∃ a ∈ sortedCounts counts,
      (fun x => decide (scaledAnchor (sortedCounts counts) q s < x)) a = true := by
    rcases hex with ⟨x0, hx0, hlt⟩
    exact ⟨x0, hperm.mem_iff.mpr hx0, decide_eq_true hlt⟩
  have hb : trimBoundary (sortedCounts counts)
      (scaledAnchor (sortedCounts counts) q s) =
      (sortedCounts counts).findIdx
        (fun x => decide (scaledAnchor (sortedCounts counts) q s < x)) :=
    npArgmaxBool_map_eq_findIdx _ _ hex2
  have htake := take_findIdx_eq_filter
    (p := fun x => decide (scaledAnchor (sortedCounts counts) q s < x))
    (fun x y hxy hpx => by
      rw [decide_eq_true_eq] at hpx ⊢
      exact lt_of_lt_of_le hpx hxy)
    (sortedCounts counts) hsorted
  have hfun : ∀ a ∈ sortedCounts counts,
      (!(decide (scaledAnchor (sortedCounts counts) q s < a))) =
        decide (a ≤ scaledAnchor (sortedCounts counts) q s) := by
    intro a _
    by_cases hca : scaledAnchor (sortedCounts counts) q s < a
    · simp [hca, not_le.mpr hca]
    · simp [hca, not_lt.mp hca]
  have hkept : (sortedCounts counts).take
      (trimBoundary (sortedCounts counts)
        (scaledAnchor (sortedCounts counts) q s)) =
      (sortedCounts counts).filter
        (fun x => decide (x ≤ scaledAnchor (sortedCounts counts) q s)) := by
    rw [hb, htake]
    exact List.filter_congr hfun
  refine ⟨hkept, ?_⟩
  rw [hkept]
  exact hperm.filter _

/-- C10 witness: the threshold-filter theorem applied to the unsorted
    scores [30, 10, 20] with q = 1/2 and s = 6/5, scaled value 24. -/
theorem trimOutliers_threshold_filter_witness :
    (⟨20, 1, 24, 2, [10, 20]⟩ : TrimResult).kept =
      (sortedCounts [30, 10, 20]).filter
        (fun x => decide (x ≤ (⟨20, 1, 24, 2, [10, 20]⟩ : TrimResult).scaledValue)) ∧
    List.Perm (⟨20, 1, 24, 2, [10, 20]⟩ : TrimResult).kept
      (([30, 10, 20] : List ℚ).filter
        (fun x => decide (x ≤ (⟨20, 1, 24, 2, [10, 20]⟩ : TrimResult).scaledValue))) :=
  trimOutliers_threshold_filter
    (by norm_num [trimOutliers, sortedCounts, List.insertionSort,
      List.orderedInsert, npQuantile, quantileIndex, npArgmin, listMin, absQ,
      min_def, trimBoundary, npArgmaxBool, List.contains, Int.toNat_ofNat] :
      trimOutliers [30, 10, 20] (1/2) (6/5) =
        Except.ok ⟨20, 1, 24, 2, [10, 20]⟩)
    (by norm_num)

